import Mathlib

/-!
Verification of the Conserve backup system's storage engine against its
natural-language specification.

This file shallowly embeds the parts of the source that the checked claims
are about:

* `src/blockdir.rs` — the content-addressed block store (`BlockDir`):
  `store_or_deduplicate`, `contains`, `read_address`, `get_block_content`,
  together with the content LRU cache and the existence LRU cache.
* `src/errors.rs` — the error kinds relevant to those operations.
* `src/stitch.rs` — the stitched-index iterator
  (`IterStitchedIndexHunks::next` and `previous_existing_band`).
* The garbage-collection entry point `Archive::delete_bands`, whose
  implementation is not part of the provided sources and is therefore
  modelled from the specification (section 4.10).

Machine integers (`u64`, `usize`) are modelled as `Nat`; byte strings as
`List Nat`.  Blocks are addressed in the transport by
`d/<hash[0:3]>/<hash>`; since that relative path is an injective function
of the hash, the transport's file map is keyed directly by the hash.
-/

deriving instance DecidableEq for Except

namespace Conserve

/-! ## Bytes, hashes and the environment

`BlockHash::hash_bytes` is BLAKE2b-512 and Snappy provides
`Compressor`/`Decompressor`; their internals are irrelevant to the claims,
which hold for every choice of hash and codec, so they are parameters
(`Env`) of the model rather than concrete functions. -/

/-- Byte strings (`Bytes` in the source), bytes modelled as naturals. -/
abbrev Bytes := List Nat

/-- Stand-in for the BLAKE2b-512 digest type `BlockHash`. -/
abbrev BlockHash := Nat

/-- File kinds, from `entry.rs` (`Kind`). -/
inductive Kind where
  | file
  | dir
  | symlink
  | unknown
deriving DecidableEq, Repr

/-- Parameters of the block store model: the hash function
(`BlockHash::hash_bytes`, BLAKE2b); Snappy compression
(`Compressor::compress`, total) and decompression
(`Decompressor::decompress`, which can fail on invalid input). -/
structure Env where
  hashBytes : Bytes → BlockHash
  compress : Bytes → Bytes
  decompress : Bytes → Option Bytes

/-- `Address` from `blockdir.rs`: `len` bytes at `start` inside the
uncompressed block named by `hash`.  `start` and `len` are `u64` in the
source, modelled as `Nat`. -/
structure Address where
  hash : BlockHash
  start : Nat
  len : Nat
deriving DecidableEq, Repr

/-- The error kinds of `errors.rs` reachable from the embedded operations.

`blockTooShort` is the variant constructed at `blockdir.rs:193`
(`Error::BlockTooShort { hash, actual_len, referenced_len }`, the
`ShortBlock` shape of `errors.rs`).  `addressTooLong` and `writeBlock`
exist in `errors.rs` but are not constructed by any embedded operation;
they are included so that claims naming them can be stated.
`transportErr` is `Error::Transport`, the `#[from]` conversion applied by
the `?` operator to every `transport::Error`. -/
inductive ConsError where
  | blockCorrupt (hash : BlockHash)
  | addressTooLong (address : Address) (actual_len : Nat)
  | blockTooShort (hash : BlockHash) (actual_len : Nat) (referenced_len : Nat)
  | writeBlock (hash : BlockHash)
  | transportErr
  | snapCompressionErr
  | gcLockHeld
  | deleteWithIncompleteBackup (band_id : Nat)
deriving DecidableEq, Repr

/-! ## Transport and BlockDir state

The transport under the blockdir root maps each block's relative path to a
directory entry (kind and content).  Fault injection mirrors the
`transport::Error` outcomes the code distinguishes: `metaErr` lists hashes
for which `metadata`/`read_file` fail with a non-not-found error, and
`createDirErr`/`writeFileErr` make the corresponding write operations
fail.  The two LRU caches are most-recent-first lists truncated to their
capacity. -/

/-- Mutable state of a `BlockDir` together with its transport. -/
structure BDState where
  /-- Transport files under the blockdir, keyed by block hash
  (the key stands for the relative path `d/<hash[0:3]>/<hash>`). -/
  files : List (BlockHash × Kind × Bytes)
  /-- Hashes for which transport operations fail with an error that is
  not not-found. -/
  metaErr : List BlockHash
  /-- Fault injection: `create_dir` fails with an I/O error. -/
  createDirErr : Bool
  /-- Fault injection: `write_file` fails with an I/O error. -/
  writeFileErr : Bool
  /-- The content LRU (`cache: RwLock<LruCache<BlockHash, Bytes>>`). -/
  cache : List (BlockHash × Bytes)
  /-- The existence LRU (`exists: RwLock<LruCache<BlockHash, ()>>`). -/
  existsCache : List BlockHash
deriving Repr, DecidableEq

/-- `BLOCK_CACHE_SIZE` from `BlockDir::open`. -/
def blockCacheSize : Nat := 100

/-- `EXISTENCE_CACHE_SIZE = (64 << 20) / BLAKE_HASH_SIZE_BYTES` from
`BlockDir::open`, with `BLAKE_HASH_SIZE_BYTES = 64`. -/
def existenceCacheSize : Nat := (64 * 1024 * 1024) / 64

/-- `LruCache::put`: insert the pair at the front, dropping any older
entry with the same key, and evict down to the capacity. -/
def lruPut (cap : Nat) (k : BlockHash) (v : Bytes) (c : List (BlockHash × Bytes)) :
    List (BlockHash × Bytes) :=
  ((k, v) :: c.filter (fun p => p.1 != k)).take cap

/-- `LruCache::contains` (via a read lock): key lookup without promoting
the entry. -/
def lruContainsKey (k : BlockHash) (c : List (BlockHash × Bytes)) : Bool :=
  c.any (fun p => p.1 == k)

/-- `LruCache::get` (via a write lock): return the value and promote the
entry to most-recently-used. -/
def lruGet (k : BlockHash) (c : List (BlockHash × Bytes)) :
    Option (Bytes × List (BlockHash × Bytes)) :=
  match c.find? (fun p => p.1 == k) with
  | none => none
  | some p => some (p.2, (k, p.2) :: c.filter (fun q => q.1 != k))

/-- `LruCache::put`/`push` on the existence cache (values are `()`). -/
def lruPushKey (cap : Nat) (k : BlockHash) (c : List BlockHash) : List BlockHash :=
  (k :: c.filter (fun q => q != k)).take cap

/-- `Transport2::write_file` followed by atomic rename: publish the file,
replacing any existing entry at the same path. -/
def storePut (h : BlockHash) (v : Kind × Bytes) (fs : List (BlockHash × Kind × Bytes)) :
    List (BlockHash × Kind × Bytes) :=
  (h, v) :: fs.filter (fun p => p.1 != h)

/-- Outcome of a transport call: success, not-found, or another error
(the code distinguishes not-found via `err.is_not_found()`). -/
inductive TrResult (α : Type) where
  | ok (a : α)
  | notFound
  | otherErr
deriving DecidableEq, Repr

/-- Transport metadata (`{kind, len}`) of a directory entry. -/
structure TransportMeta where
  kind : Kind
  len : Nat
deriving DecidableEq, Repr

/-- `self.transport.metadata(&block_relpath(hash))`. -/
def transportMetadata (s : BDState) (h : BlockHash) : TrResult TransportMeta :=
  if s.metaErr.contains h then .otherErr
  else
    match s.files.lookup h with
    | none => .notFound
    | some (k, content) => .ok ⟨k, content.length⟩

/-- `self.transport.read_file(&block_relpath(hash))`; reading a
non-regular-file entry fails. -/
def transportReadFile (s : BDState) (h : BlockHash) : TrResult Bytes :=
  if s.metaErr.contains h then .otherErr
  else
    match s.files.lookup h with
    | none => .notFound
    | some (k, content) => if k == Kind.file then .ok content else .otherErr

/-- The fields of `BackupStats` updated by `store_or_deduplicate`. -/
structure BackupStats where
  deduplicated_blocks : Nat := 0
  deduplicated_bytes : Nat := 0
  written_blocks : Nat := 0
  uncompressed_bytes : Nat := 0
  compressed_bytes : Nat := 0
deriving DecidableEq, Repr

/-! ## BlockDir operations (`blockdir.rs`)

Each operation takes and returns the `BDState`; an error outcome returns
the state reached so far, matching the interior-mutable `&self` methods of
the source. -/

/-- `BlockDir::contains` (`blockdir.rs:157-178`): fast path via either
in-memory cache; on miss probe transport metadata, mapping not-found to
`Ok(false)`, other errors to `Err`, a regular file with positive length to
`Ok(true)` (recording it in the existence cache) and anything else —
including a zero-length file — to `Ok(false)`. -/
def contains (s : BDState) (h : BlockHash) : Except ConsError Bool × BDState :=
  if lruContainsKey h s.cache || s.existsCache.contains h then
    (.ok true, s)
  else
    match transportMetadata s h with
    | .notFound => (.ok false, s)
    | .otherErr => (.error .transportErr, s)
    | .ok m =>
      if m.kind == Kind.file && decide (0 < m.len) then
        (.ok true, { s with existsCache := lruPushKey existenceCacheSize h s.existsCache })
      else
        (.ok false, s)

/-- `BlockDir::store_or_deduplicate` (`blockdir.rs:113-147`): hash the
data; if `contains` reports the hash present, count a dedup and return the
hash without writing; otherwise compress, create the subdirectory, write
the block file, update the statistics and both caches.  Transport failures
of `create_dir`/`write_file` propagate through `?` as `Error::Transport`. -/
def store_or_deduplicate (env : Env) (s : BDState) (block_data : Bytes)
    (stats : BackupStats) : Except ConsError BlockHash × BDState × BackupStats :=
  let hash := env.hashBytes block_data
  let uncomp_len := block_data.length
  match contains s hash with
  | (.error e, s') => (.error e, s', stats)
  | (.ok true, s') =>
    (.ok hash, s',
      { stats with
          deduplicated_blocks := stats.deduplicated_blocks + 1
          deduplicated_bytes := stats.deduplicated_bytes + uncomp_len })
  | (.ok false, s') =>
    let compressed := env.compress block_data
    let comp_len := compressed.length
    if s'.createDirErr then (.error .transportErr, s', stats)
    else if s'.writeFileErr then (.error .transportErr, s', stats)
    else
      let s2 := { s' with files := storePut hash (Kind.file, compressed) s'.files }
      let stats' :=
        { stats with
            written_blocks := stats.written_blocks + 1
            uncompressed_bytes := stats.uncompressed_bytes + uncomp_len
            compressed_bytes := stats.compressed_bytes + comp_len }
      let s3 :=
        { s2 with
            cache := lruPut blockCacheSize hash block_data s2.cache
            existsCache := lruPushKey existenceCacheSize hash s2.existsCache }
      (.ok hash, s3, stats')

/-- `BlockDir::get_block_content` (`blockdir.rs:206-241`): content-cache
hit returns the cached bytes (promoting the entry); otherwise read the
compressed file, decompress, verify the recomputed hash, and only then
populate both caches. -/
def get_block_content (env : Env) (s : BDState) (h : BlockHash) :
    Except ConsError Bytes × BDState :=
  match lruGet h s.cache with
  | some (hit, cache') => (.ok hit, { s with cache := cache' })
  | none =>
    match transportReadFile s h with
    | .notFound => (.error .transportErr, s)
    | .otherErr => (.error .transportErr, s)
    | .ok compressed_bytes =>
      match env.decompress compressed_bytes with
      | none => (.error .snapCompressionErr, s)
      | some decompressed_bytes =>
        let actual_hash := env.hashBytes decompressed_bytes
        if actual_hash != h then
          (.error (.blockCorrupt h), s)
        else
          (.ok decompressed_bytes,
            { s with
                cache := lruPut blockCacheSize h decompressed_bytes s.cache
                existsCache := lruPushKey existenceCacheSize h s.existsCache })

/-- `BlockDir::read_address` (`blockdir.rs:186-200`): fetch the block
content, then slice `start..start+len`, failing with the block-too-short
error when the end position exceeds the content length. -/
def read_address (env : Env) (s : BDState) (address : Address) :
    Except ConsError Bytes × BDState :=
  match get_block_content env s address.hash with
  | (.error e, s') => (.error e, s')
  | (.ok bytes, s') =>
    let len := address.len
    let start := address.start
    let endPos := start + len
    let actual_len := bytes.length
    if endPos > actual_len then
      (.error (.blockTooShort address.hash actual_len len), s')
    else
      (.ok ((bytes.drop start).take len), s')

/-! ## Basic lemmas about the caches and `contains` -/

theorem lruPut_containsKey_self (cap : Nat) (k : BlockHash) (v : Bytes)
    (c : List (BlockHash × Bytes)) (hcap : 0 < cap) :
    lruContainsKey k (lruPut cap k v c) = true := by
  unfold lruPut lruContainsKey
  cases cap with
  | zero => omega
  | succ n => simp [List.take_succ_cons]

theorem lruPushKey_contains_self (cap : Nat) (k : BlockHash) (c : List BlockHash)
    (hcap : 0 < cap) : (lruPushKey cap k c).contains k = true := by
  unfold lruPushKey
  cases cap with
  | zero => omega
  | succ n => simp [List.take_succ_cons]

theorem existenceCacheSize_pos : 0 < existenceCacheSize := by decide

theorem blockCacheSize_pos : 0 < blockCacheSize := by decide

/-- `contains` only ever touches the existence cache: transport files,
fault flags and the content cache are unchanged. -/
theorem contains_preserves (s : BDState) (h : BlockHash) :
    (contains s h).2.files = s.files ∧
    (contains s h).2.metaErr = s.metaErr ∧
    (contains s h).2.createDirErr = s.createDirErr ∧
    (contains s h).2.writeFileErr = s.writeFileErr ∧
    (contains s h).2.cache = s.cache := by
  unfold contains
  split
  · exact ⟨rfl, rfl, rfl, rfl, rfl⟩
  · split
    · exact ⟨rfl, rfl, rfl, rfl, rfl⟩
    · exact ⟨rfl, rfl, rfl, rfl, rfl⟩
    · split
      · exact ⟨rfl, rfl, rfl, rfl, rfl⟩
      · exact ⟨rfl, rfl, rfl, rfl, rfl⟩

/-- A cache hit makes `contains` answer true without touching anything. -/
theorem contains_fast (s : BDState) (h : BlockHash)
    (hx : (lruContainsKey h s.cache || s.existsCache.contains h) = true) :
    contains s h = (.ok true, s) := by
  unfold contains
  rw [if_pos hx]

/-- Once `contains` has answered true, it answers true again on the state
it returned (the hit either came from a cache, which is unchanged, or from
transport metadata, which `contains` recorded in the existence cache). -/
theorem contains_true_stable (s : BDState) (h : BlockHash)
    (hc : (contains s h).1 = .ok true) :
    contains (contains s h).2 h = (.ok true, (contains s h).2) := by
  by_cases hfast : (lruContainsKey h s.cache || s.existsCache.contains h) = true
  · rw [contains_fast s h hfast]
    exact contains_fast s h hfast
  · rcases hm : transportMetadata s h with m | _ | _
    · by_cases hk : (m.kind == Kind.file && decide (0 < m.len)) = true
      · have hch : contains s h =
            (.ok true,
             { s with existsCache := lruPushKey existenceCacheSize h s.existsCache }) := by
          simp only [contains, hm]
          rw [if_neg hfast, if_pos hk]
        rw [hch]
        apply contains_fast
        rw [Bool.or_eq_true]
        right
        exact lruPushKey_contains_self _ _ _ existenceCacheSize_pos
      · have hch : contains s h = (.ok false, s) := by
          simp only [contains, hm]
          rw [if_neg hfast, if_neg hk]
        rw [hch] at hc
        simp at hc
    · have hch : contains s h = (.ok false, s) := by
        simp only [contains, hm]
        rw [if_neg hfast]
      rw [hch] at hc
      simp at hc
    · have hch : contains s h = (.error .transportErr, s) := by
        simp only [contains, hm]
        rw [if_neg hfast]
      rw [hch] at hc
      simp at hc

/-- After a successful `store_or_deduplicate`, the returned hash is the
hash of the data and `contains` reports it present on the resulting state
(via the content cache after a write, via the stability of `contains`
after a dedup). -/
theorem store_ok_contains (env : Env) (s : BDState) (b : Bytes) (stats : BackupStats)
    (h : BlockHash) (s1 : BDState) (st1 : BackupStats)
    (hst : store_or_deduplicate env s b stats = (.ok h, s1, st1)) :
    h = env.hashBytes b ∧ contains s1 h = (.ok true, s1) := by
  rcases hcc : contains s (env.hashBytes b) with ⟨r, s'⟩
  cases r with
  | error e =>
    simp only [store_or_deduplicate, hcc] at hst
    simp at hst
  | ok bv =>
    cases bv with
    | true =>
      simp only [store_or_deduplicate, hcc] at hst
      simp only [Prod.mk.injEq, Except.ok.injEq] at hst
      obtain ⟨h1, h2, _⟩ := hst
      subst h1
      subst h2
      have hstab := contains_true_stable s (env.hashBytes b) (by rw [hcc])
      rw [hcc] at hstab
      exact ⟨rfl, hstab⟩
    | false =>
      simp only [store_or_deduplicate, hcc] at hst
      by_cases hcd : s'.createDirErr
      · simp [hcd] at hst
      · by_cases hwf : s'.writeFileErr
        · simp [hcd, hwf] at hst
        · simp only [hcd, hwf, if_neg Bool.false_ne_true, Bool.false_eq_true,
            if_false] at hst
          simp only [Prod.mk.injEq, Except.ok.injEq] at hst
          obtain ⟨h1, h2, _⟩ := hst
          subst h1
          subst h2
          refine ⟨rfl, contains_fast _ _ ?_⟩
          rw [Bool.or_eq_true]
          left
          exact lruPut_containsKey_self _ _ _ _ blockCacheSize_pos

/-! ## Concrete instances for witnesses and counterexamples -/

/-- A concrete environment: length as the hash, the identity codec. -/
def envA : Env :=
  { hashBytes := fun b => b.length
    compress := fun b => b
    decompress := fun b => some b }

/-- State whose existence cache already knows hash `1`. -/
def stC : BDState := ⟨[], [], false, false, [], [1]⟩

/-- Completely empty state. -/
def stD : BDState := ⟨[], [], false, false, [], []⟩

/-- The state after storing the block `[5]` (hash 1 under `envA`) in `stD`. -/
def stD1 : BDState := ⟨[(1, (Kind.file, [5]))], [], false, false, [(1, [5])], [1]⟩

/-- The statistics after that store. -/
def stD1stats : BackupStats := ⟨0, 0, 1, 1, 1⟩

/-! ## Claim C1 -/

/-- **C1.** For every byte block `b`, if `contains(BLAKE2b(b))` returns
true then `store_or_deduplicate(b)` returns the hash `BLAKE2b(b)` without
performing any transport write and increments the deduplicated-blocks and
deduplicated-bytes counters; consequently calling `store_or_deduplicate`
twice with the same bytes writes the block file at most once: after any
successful call, the second call is a dedup that leaves the transport
files unchanged and does not increment `written_blocks`. -/
theorem claim_C1_store_or_deduplicate_dedup_and_idempotent :
    (∀ (env : Env) (s : BDState) (stats : BackupStats) (b : Bytes),
      (contains s (env.hashBytes b)).1 = .ok true →
      store_or_deduplicate env s b stats =
        (.ok (env.hashBytes b), (contains s (env.hashBytes b)).2,
          { stats with
              deduplicated_blocks := stats.deduplicated_blocks + 1
              deduplicated_bytes := stats.deduplicated_bytes + b.length }) ∧
      (contains s (env.hashBytes b)).2.files = s.files)
    ∧
    (∀ (env : Env) (s : BDState) (stats1 stats2 : BackupStats) (b : Bytes)
      (h : BlockHash) (s1 : BDState) (st1 : BackupStats),
      store_or_deduplicate env s b stats1 = (.ok h, s1, st1) →
      (store_or_deduplicate env s1 b stats2).1 = .ok h ∧
      (store_or_deduplicate env s1 b stats2).2.1.files = s1.files ∧
      (store_or_deduplicate env s1 b stats2).2.2.written_blocks = stats2.written_blocks ∧
      (store_or_deduplicate env s1 b stats2).2.2.deduplicated_blocks =
        stats2.deduplicated_blocks + 1) := by
  constructor
  · intro env s stats b hc
    rcases hcc : contains s (env.hashBytes b) with ⟨r, s'⟩
    rw [hcc] at hc
    simp only [Prod.fst] at hc
    subst hc
    constructor
    · simp only [store_or_deduplicate, hcc]
    · have hpres := contains_preserves s (env.hashBytes b)
      rw [hcc] at hpres
      exact hpres.1
  · intro env s stats1 stats2 b h s1 st1 hst
    obtain ⟨hh, hcont⟩ := store_ok_contains env s b stats1 h s1 st1 hst
    subst hh
    simp only [store_or_deduplicate, hcont]
    simp

/-- Witness for C1 at concrete inputs: a dedup on a cached hash, and the
idempotence of a fresh store of `[5]` into the empty state. -/
theorem claim_C1_witness :
    ((contains stC 1).1 = .ok true ∧
      (store_or_deduplicate envA stC [5] {}).1 = .ok 1) ∧
    (store_or_deduplicate envA stD [5] {} = (.ok 1, stD1, stD1stats) ∧
      (store_or_deduplicate envA stD1 [5] {}).2.1.files = stD1.files ∧
      (store_or_deduplicate envA stD1 [5] {}).2.2.written_blocks = 0) := by
  have h1 :=
    (claim_C1_store_or_deduplicate_dedup_and_idempotent.1 envA stC {} [5] (by decide)).1
  have h2 :=
    claim_C1_store_or_deduplicate_dedup_and_idempotent.2 envA stD {} {} [5] 1 stD1
      stD1stats (by decide)
  refine ⟨⟨by decide, ?_⟩, by decide, h2.2.1, h2.2.2.1⟩
  rw [h1]
  rfl

/-! ## Claim C4 -/

/-- State containing one stored block: hash `2` (under `envA`), content
`[7, 8]`. -/
def stA : BDState := ⟨[(2, (Kind.file, [7, 8]))], [], false, false, [], []⟩

/-- The state after `get_block_content envA stA 2` populates the caches. -/
def stA1 : BDState := ⟨[(2, (Kind.file, [7, 8]))], [], false, false, [(2, [7, 8])], [2]⟩

/-- Recognizer for the `AddressTooLong` error kind in an operation result. -/
def isAddressTooLongRes : Except ConsError Bytes → Bool
  | .error (.addressTooLong _ _) => true
  | _ => false

/-- **C4 (counterexample).** At the address `{hash 2, start 1, len 4}` on a
block whose content `[7, 8]` is retrievable, the end position `5` exceeds
the content length `2`, and `read_address` fails — but with the
block-too-short error (`Error::BlockTooShort`, the `ShortBlock` shape of
`errors.rs`), not with `AddressTooLong` as the claim states. -/
theorem claim_C4_counterexample :
    (read_address envA stA ⟨2, 1, 4⟩).1 = .error (.blockTooShort 2 2 4) ∧
    isAddressTooLongRes (read_address envA stA ⟨2, 1, 4⟩).1 = false := by
  decide

/-- **C4 (amended).** For every `Address {hash, start, len}` whose block
content is retrievable, `read_address` returns exactly
`content[start..start+len]` when `start+len ≤ content.len()`, and fails
with the block-too-short error (`ShortBlock`/`BlockTooShort`, not
`AddressTooLong`) when `start+len > content.len()`. -/
theorem claim_C4_read_address_slice_or_short :
    ∀ (env : Env) (s s' : BDState) (address : Address) (content : Bytes),
      get_block_content env s address.hash = (.ok content, s') →
      ((address.start + address.len ≤ content.length →
          read_address env s address =
            (.ok ((content.drop address.start).take address.len), s')) ∧
        (content.length < address.start + address.len →
          read_address env s address =
            (.error (.blockTooShort address.hash content.length address.len), s'))) := by
  intro env s s' address content hgc
  constructor
  · intro hle
    simp only [read_address, hgc]
    rw [if_neg (by omega)]
  · intro hgt
    simp only [read_address, hgc]
    rw [if_pos (by omega)]

/-- Witness for the amended C4: reading `{hash 2, start 0, len 2}` from
the concrete store returns the whole content `[7, 8]`. -/
theorem claim_C4_witness :
    read_address envA stA ⟨2, 0, 2⟩ = (.ok [7, 8], stA1) :=
  (claim_C4_read_address_slice_or_short envA stA stA1 ⟨2, 0, 2⟩ [7, 8] (by decide)).1
    (by decide)

/-! ## Claim C5 -/

/-- **C5.** For every hash not present in either in-memory cache,
`contains` returns `Ok(false)` when the transport reports not-found,
returns `Ok(false)` when the metadata reports length zero, and returns
`Ok(true)` exactly when the metadata reports a regular file of positive
length; consequently a subsequent `store_or_deduplicate` of bytes with
that hash rewrites an empty (truncated) block file and counts a write. -/
theorem claim_C5_contains_empty_as_absent :
    ∀ (s : BDState) (h : BlockHash),
      lruContainsKey h s.cache = false →
      s.existsCache.contains h = false →
      ((transportMetadata s h = .notFound → contains s h = (.ok false, s)) ∧
        (∀ m, transportMetadata s h = .ok m → m.len = 0 →
          contains s h = (.ok false, s)) ∧
        ((contains s h).1 = .ok true ↔
          ∃ m, transportMetadata s h = .ok m ∧ m.kind = Kind.file ∧ 0 < m.len) ∧
        (∀ (env : Env) (b : Bytes) (stats : BackupStats),
          env.hashBytes b = h →
          s.files.lookup h = some (Kind.file, []) →
          s.metaErr.contains h = false →
          s.createDirErr = false →
          s.writeFileErr = false →
          (store_or_deduplicate env s b stats).1 = .ok h ∧
          (store_or_deduplicate env s b stats).2.1.files.lookup h =
            some (Kind.file, env.compress b) ∧
          (store_or_deduplicate env s b stats).2.2.written_blocks =
            stats.written_blocks + 1)) := by
  intro s h h1 h2
  have hfast : ¬((lruContainsKey h s.cache || s.existsCache.contains h) = true) := by
    rw [h1, h2]
    simp
  refine ⟨?_, ?_, ?_, ?_⟩
  · intro hm
    simp only [contains, hm]
    rw [if_neg hfast]
  · intro m hm hlen
    simp only [contains, hm]
    rw [if_neg hfast]
    have : (m.kind == Kind.file && decide (0 < m.len)) = false := by
      rw [hlen]
      simp
    rw [this]
    simp
  · constructor
    · intro htrue
      rcases hm : transportMetadata s h with m | _ | _
      · by_cases hk : (m.kind == Kind.file && decide (0 < m.len)) = true
        · refine ⟨m, rfl, ?_, ?_⟩
          · have := (Bool.and_eq_true ..).mp hk
            exact beq_iff_eq.mp this.1
          · have := (Bool.and_eq_true ..).mp hk
            exact of_decide_eq_true this.2
        · have hch : contains s h = (.ok false, s) := by
            simp only [contains, hm]
            rw [if_neg hfast, if_neg hk]
          rw [hch] at htrue
          simp at htrue
      · have hch : contains s h = (.ok false, s) := by
          simp only [contains, hm]
          rw [if_neg hfast]
        rw [hch] at htrue
        simp at htrue
      · have hch : contains s h = (.error .transportErr, s) := by
          simp only [contains, hm]
          rw [if_neg hfast]
        rw [hch] at htrue
        simp at htrue
    · rintro ⟨m, hm, hkind, hlen⟩
      have hk : (m.kind == Kind.file && decide (0 < m.len)) = true := by
        rw [hkind]
        simp [hlen]
      simp only [contains, hm]
      rw [if_neg hfast, if_pos hk]
  · intro env b stats hb hfile hmeta hcd hwf
    have hmm : transportMetadata s h = .ok ⟨Kind.file, 0⟩ := by
      simp only [transportMetadata, hmeta, hfile]
      rfl
    have hcf : contains s h = (.ok false, s) := by
      simp only [contains, hmm]
      rw [if_neg hfast]
      simp
    simp only [store_or_deduplicate, hb, hcf, hcd, hwf]
    refine ⟨rfl, ?_, rfl⟩
    simp [storePut, List.lookup]

/-- State containing an empty (truncated) block file for hash `1`. -/
def stE : BDState := ⟨[(1, (Kind.file, []))], [], false, false, [], []⟩

/-- Witness for C5: on `stE` the empty block file for hash `1` is treated
as absent, and a subsequent store of `[5]` (hash `1`) rewrites it. -/
theorem claim_C5_witness :
    (contains stE 1).1 = .ok false ∧
    (store_or_deduplicate envA stE [5] {}).1 = .ok 1 ∧
    (store_or_deduplicate envA stE [5] {}).2.1.files.lookup 1 =
      some (Kind.file, [5]) ∧
    (store_or_deduplicate envA stE [5] {}).2.2.written_blocks = 1 := by
  have h := claim_C5_contains_empty_as_absent stE 1 (by decide) (by decide)
  have hd := h.2.2.2 envA [5] {} (by decide) (by decide) (by decide) (by decide) (by decide)
  exact ⟨by decide, hd.1, hd.2.1, hd.2.2⟩

/-! ## Claim C6 -/

/-- **C6.** For every hash whose content is not in the content cache,
`get_block_content` reads the compressed file, decompresses it, and
returns `Ok(bytes)` only if the recomputed hash equals the requested one;
on mismatch it fails with `BlockCorrupt` and leaves both caches exactly as
they were. -/
theorem claim_C6_get_block_content_verifies_hash :
    ∀ (env : Env) (s : BDState) (h : BlockHash) (compressed d : Bytes),
      lruGet h s.cache = none →
      transportReadFile s h = .ok compressed →
      env.decompress compressed = some d →
      ((env.hashBytes d = h →
          get_block_content env s h =
            (.ok d,
              { s with
                  cache := lruPut blockCacheSize h d s.cache
                  existsCache := lruPushKey existenceCacheSize h s.existsCache })) ∧
        (env.hashBytes d ≠ h →
          get_block_content env s h = (.error (.blockCorrupt h), s)) ∧
        (∀ (bytes : Bytes) (s2 : BDState),
          get_block_content env s h = (.ok bytes, s2) → env.hashBytes bytes = h)) := by
  intro env s h compressed d hlru hread hdec
  have hbase :
      get_block_content env s h =
        if (env.hashBytes d != h) = true then (.error (.blockCorrupt h), s)
        else
          (.ok d,
            { s with
                cache := lruPut blockCacheSize h d s.cache
                existsCache := lruPushKey existenceCacheSize h s.existsCache }) := by
    simp only [get_block_content, hlru, hread, hdec]
  refine ⟨?_, ?_, ?_⟩
  · intro heq
    rw [hbase, if_neg (by simp [heq])]
  · intro hne
    rw [hbase, if_pos (by simp [hne])]
  · intro bytes s2 hok
    rw [hbase] at hok
    by_cases hx : env.hashBytes d = h
    · rw [if_neg (by simp [hx])] at hok
      simp only [Prod.mk.injEq, Except.ok.injEq] at hok
      rw [← hok.1]
      exact hx
    · rw [if_pos (by simp [hx])] at hok
      simp at hok

/-- State containing a block filed under hash `3` whose actual content
hashes to `2` under `envA` — a corrupt block. -/
def stF : BDState := ⟨[(3, (Kind.file, [7, 8]))], [], false, false, [], []⟩

/-- Witness for C6: reading hash `2` from the valid store succeeds and
populates the caches; reading hash `3` from the corrupt store fails with
`BlockCorrupt` and leaves the state untouched. -/
theorem claim_C6_witness :
    get_block_content envA stA 2 = (.ok [7, 8], stA1) ∧
    get_block_content envA stF 3 = (.error (.blockCorrupt 3), stF) := by
  have hgood :=
    (claim_C6_get_block_content_verifies_hash envA stA 2 [7, 8] [7, 8] (by decide)
        (by decide) (by decide)).1 (by decide)
  have hbad :=
    (claim_C6_get_block_content_verifies_hash envA stF 3 [7, 8] [7, 8] (by decide)
        (by decide) (by decide)).2.1 (by decide)
  exact ⟨hgood, hbad⟩

/-! ## Claim C9 -/

/-- Recognizer for the `WriteBlock` error kind in a store result. -/
def isWriteBlockRes : Except ConsError BlockHash → Bool
  | .error (.writeBlock _) => true
  | _ => false

/-- Empty state whose transport fails `create_dir` with an I/O error. -/
def stB : BDState := ⟨[], [], true, false, [], []⟩

/-- **C9 (counterexample).** Storing `[5]` into an empty blockdir whose
transport fails `create_dir` makes `store_or_deduplicate` fail — but with
the `Transport` error kind (the `?`/`#[from]` conversion of
`transport::Error` in `errors.rs`), not with `WriteBlock` as the claim
states; `WriteBlock` is never constructed by `store_or_deduplicate`. -/
theorem claim_C9_counterexample :
    (store_or_deduplicate envA stB [5] {}).1 = .error .transportErr ∧
    isWriteBlockRes (store_or_deduplicate envA stB [5] {}).1 = false := by
  decide

/-- **C9 (amended).** For every byte block whose hash is not already
present, if a transport I/O error occurs while creating the subdirectory
or writing the block file, `store_or_deduplicate` fails with the
`Transport` error kind (not `WriteBlock`). -/
theorem claim_C9_store_transport_error :
    ∀ (env : Env) (s : BDState) (b : Bytes) (stats : BackupStats),
      (contains s (env.hashBytes b)).1 = .ok false →
      (s.createDirErr = true ∨ s.writeFileErr = true) →
      (store_or_deduplicate env s b stats).1 = .error .transportErr := by
  intro env s b stats hc hflag
  rcases hcc : contains s (env.hashBytes b) with ⟨r, s'⟩
  rw [hcc] at hc
  simp only [Prod.fst] at hc
  subst hc
  have hpres := contains_preserves s (env.hashBytes b)
  rw [hcc] at hpres
  simp only [store_or_deduplicate, hcc]
  by_cases hcd : s'.createDirErr
  · rw [if_pos hcd]
  · rw [if_neg hcd]
    have hwf : s'.writeFileErr = true := by
      rcases hflag with hl | hr
      · exfalso
        apply hcd
        rw [hpres.2.2.1, hl]
      · rw [hpres.2.2.2.1, hr]
    rw [if_pos hwf]

/-- Witness for the amended C9: the `create_dir` fault on the empty store
makes the store of `[5]` fail with the transport error. -/
theorem claim_C9_witness :
    (store_or_deduplicate envA stB [5] {}).1 = .error .transportErr :=
  claim_C9_store_transport_error envA stB [5] {} (by decide) (Or.inl (by decide))

/-! ## Stitched iteration (`stitch.rs`)

The iterator needs collaborators whose sources are not among the provided
files; they are modelled from the specification:

* apaths and their order (spec section 3: each directory immediately
  before its children, siblings byte-lexicographic);
* `BandId` and `BandId::previous` (spec section 3: monotonically assigned
  tuples, modelled by the top-level sequence of naturals);
* `Band::open`, `Band::is_closed`, `Archive::band_exists` (spec 4.4/4.5);
* `IndexHunkIter::advance_to_after` (spec 4.3).

`IterStitchedIndexHunks::next` itself is translated from `stitch.rs`
lines 101–159 and `previous_existing_band` from lines 162–176. -/

/-- Modelled from the spec: an apath as its list of path components, each
component a byte string.  The derived lexicographic list order places
every directory immediately before its children (the empty suffix sorts
first) and orders siblings by byte-lexicographic comparison of the first
differing component — the apath total order of spec section 3. -/
abbrev Apath := List (List Nat)

/-- Modelled from the spec: an index entry.  Only the apath (the ordering
key) matters to stitched iteration; every other field (kind, mtime,
addresses, …) is abstracted into the `target` payload, mirroring the
symlink-target labels used by the source's own stitch test. -/
structure IndexEntry where
  apath : Apath
  target : Nat
deriving DecidableEq, Repr

/-- A decoded index hunk: a list of entries. -/
abbrev Hunk := List IndexEntry

/-- Modelled from the spec: one band.  `headOk` says `BANDHEAD` is present
with a supported version and flags, so `Band::open` succeeds; `closed`
says `BANDTAIL` exists; `hunks` are the band's index hunks in order. -/
structure Band where
  headOk : Bool
  closed : Bool
  hunks : List Hunk
deriving DecidableEq, Repr

/-- Modelled from the spec: an archive as a finite association of band
ids (the top-level `bNNNN` sequence, `BandId` modelled as `Nat`) to
bands. -/
structure Archive where
  bands : List (Nat × Band)
deriving DecidableEq, Repr

/-- Band lookup by id. -/
def Archive.find (a : Archive) (id : Nat) : Option Band :=
  a.bands.lookup id

/-- `Archive::band_exists`. -/
def bandExists (a : Archive) (id : Nat) : Bool :=
  (a.find id).isSome

/-- `Archive::band_is_closed(id).unwrap_or(false)` as used by the
iterator: true iff the band exists and its `BANDTAIL` does. -/
def bandIsClosed (a : Archive) (id : Nat) : Bool :=
  match a.find id with
  | some b => b.closed
  | none => false

/-- `Band::open(archive, id)` followed by `band.index().iter_hunks()`:
yields the band's hunks when the band exists and its head is readable,
and fails (`none`) on a missing or deleted band. -/
def bandOpen (a : Archive) (id : Nat) : Option (List Hunk) :=
  match a.find id with
  | some b => if b.headOk then some b.hunks else none
  | none => none

/-- Modelled from the spec (4.3): `IndexHunkIter::advance_to_after(last)`
skips whole hunks whose final apath is `≤ last`, then filters the first
partially-overlapping hunk down to entries with apath `> last`; later
hunks are untouched. -/
def advanceToAfter (last : Apath) : List Hunk → List Hunk
  | [] => []
  | h :: rest =>
    match h.getLast? with
    | none => advanceToAfter last rest
    | some e =>
      if e.apath ≤ last then advanceToAfter last rest
      else h.filter (fun en => decide (last < en.apath)) :: rest

/-- The `if let Some(last) = &self.last_apath { … advance_to_after(last) }`
step of `State::BeforeBand`. -/
def advOpt (la : Option Apath) (hs : List Hunk) : List Hunk :=
  match la with
  | some last => advanceToAfter last hs
  | none => hs

/-- The `State` enum of `stitch.rs` (the live hunk iterator of `InBand`
is its list of remaining hunks). -/
inductive StitchState where
  | done
  | beforeBand (band_id : Nat)
  | inBand (band_id : Nat) (index_hunks : List Hunk)
  | afterBand (band_id : Nat)
deriving DecidableEq, Repr

/-- `IterStitchedIndexHunks`: the last yielded apath and the state. -/
structure Iter where
  last_apath : Option Apath
  state : StitchState
deriving DecidableEq, Repr

/-- What one pass of the `loop` body in `next()` does: return a hunk,
return `None`, or assign a new state and continue. -/
inductive StepResult where
  | yield (hunk : Hunk) (it : Iter)
  | cont (it : Iter)
  | stop
deriving DecidableEq, Repr

/-- `previous_existing_band` (`stitch.rs:162-176`): walk
`BandId::previous` (id − 1) repeatedly until an existing band is found
(errors of `band_exists` are treated as false via `unwrap_or(false)`). -/
def previousExistingBand (a : Archive) : Nat → Option Nat
  | 0 => none
  | n + 1 => if bandExists a n then some n else previousExistingBand a n

/-- One iteration of the `loop` in `IterStitchedIndexHunks::next`
(`stitch.rs:101-159`):

* `Done`: return `None`.
* `InBand`: on a next hunk, record its last entry's apath (an empty hunk
  leaves `last_apath` unchanged) and yield it; when exhausted go to
  `AfterBand`.
* `BeforeBand`: open the band; on success advance past `last_apath` and
  go to `InBand`; on failure log and go to `AfterBand`.
* `AfterBand`: a closed band ends the iteration; otherwise continue at
  the previous existing band, or end when there is none. -/
def step (a : Archive) (it : Iter) : StepResult :=
  match it.state with
  | .done => .stop
  | .inBand band_id index_hunks =>
    match index_hunks with
    | hunk :: rest =>
      .yield hunk
        ⟨(match hunk.getLast? with
          | some e => some e.apath
          | none => it.last_apath), .inBand band_id rest⟩
    | [] => .cont ⟨it.last_apath, .afterBand band_id⟩
  | .beforeBand band_id =>
    match bandOpen a band_id with
    | some hunks0 => .cont ⟨it.last_apath, .inBand band_id (advOpt it.last_apath hunks0)⟩
    | none => .cont ⟨it.last_apath, .afterBand band_id⟩
  | .afterBand band_id =>
    if bandIsClosed a band_id then .cont ⟨it.last_apath, .done⟩
    else
      match previousExistingBand a band_id with
      | some prev_band_id => .cont ⟨it.last_apath, .beforeBand prev_band_id⟩
      | none => .cont ⟨it.last_apath, .done⟩

/-- Rank of a state in the termination measure: every internal (`cont`)
transition strictly decreases it. -/
def rankNat : StitchState → Nat
  | .done => 0
  | .afterBand id => 3 * id + 1
  | .inBand id _ => 3 * id + 2
  | .beforeBand id => 3 * id + 3

/-- Number of hunks still queued in an `InBand` state: yields keep the
rank and strictly decrease this. -/
def hunksLen : StitchState → Nat
  | .inBand _ hs => hs.length
  | _ => 0

/-- The running `last_apath` after yielding a list of hunks: each
non-empty hunk overwrites it with its last entry's apath. -/
def updLast (la : Option Apath) : List Hunk → Option Apath
  | [] => la
  | h :: t =>
    updLast
      (match h.getLast? with
       | some e => some e.apath
       | none => la) t

theorem previousExistingBand_lt (a : Archive) :
    ∀ (id p : Nat), previousExistingBand a id = some p → p < id := by
  intro id
  induction id with
  | zero => intro p h; simp [previousExistingBand] at h
  | succ n ih =>
    intro p h
    rw [previousExistingBand] at h
    by_cases he : bandExists a n
    · rw [if_pos he] at h
      cases h
      omega
    · rw [if_neg he] at h
      have := ih p h
      omega

theorem step_cont_rank (a : Archive) (it it' : Iter)
    (h : step a it = .cont it') : rankNat it'.state < rankNat it.state := by
  rcases it with ⟨la, st⟩
  cases st with
  | done => simp [step] at h
  | inBand id hs =>
    cases hs with
    | nil =>
      simp only [step] at h
      cases h
      simp [rankNat]
    | cons x t => simp [step] at h
  | beforeBand id =>
    rcases ho : bandOpen a id with _ | hunks0 <;> simp only [step, ho] at h <;>
      cases h <;> simp [rankNat]
  | afterBand id =>
    by_cases hcl : bandIsClosed a id
    · simp only [step, if_pos hcl] at h
      cases h
      simp [rankNat]
    · rcases hp : previousExistingBand a id with _ | p <;>
        simp only [step, if_neg hcl, hp] at h <;> cases h
      · simp [rankNat]
      · have := previousExistingBand_lt a id p hp
        simp [rankNat]
        omega

theorem step_yield_rank (a : Archive) (it : Iter) (hunk : Hunk) (it' : Iter)
    (h : step a it = .yield hunk it') :
    rankNat it'.state = rankNat it.state ∧ hunksLen it'.state < hunksLen it.state := by
  rcases it with ⟨la, st⟩
  cases st with
  | done => simp [step] at h
  | inBand id hs =>
    cases hs with
    | nil => simp [step] at h
    | cons x t =>
      simp only [step] at h
      cases h
      simp [rankNat, hunksLen]
  | beforeBand id =>
    rcases ho : bandOpen a id with _ | hunks0 <;> simp only [step, ho] at h <;> cases h
  | afterBand id =>
    by_cases hcl : bandIsClosed a id
    · simp only [step, if_pos hcl] at h
      cases h
    · rcases hp : previousExistingBand a id with _ | p <;>
        simp only [step, if_neg hcl, hp] at h <;> cases h

/-- The full hunk stream of the stitched iterator: repeated calls to
`next()` until it returns `None`. -/
def runIter (a : Archive) (it : Iter) : List Hunk :=
  match hs : step a it with
  | .stop => []
  | .cont it' => runIter a it'
  | .yield hunk it' => hunk :: runIter a it'
termination_by (rankNat it.state, hunksLen it.state)
decreasing_by
  · exact Prod.Lex.left _ _ (step_cont_rank a it it' hs)
  · have h2 := step_yield_rank a it hunk it' hs
    rw [h2.1]
    exact Prod.Lex.right _ h2.2

/-! ### Unfolding lemmas for the stitched stream -/

theorem runIter_stop (a : Archive) (it : Iter) (h : step a it = .stop) :
    runIter a it = [] := by
  conv_lhs => unfold runIter
  split <;> simp_all

theorem runIter_cont (a : Archive) (it it' : Iter) (h : step a it = .cont it') :
    runIter a it = runIter a it' := by
  conv_lhs => unfold runIter
  split <;> simp_all

theorem runIter_yield (a : Archive) (it : Iter) (hunk : Hunk) (it' : Iter)
    (h : step a it = .yield hunk it') :
    runIter a it = hunk :: runIter a it' := by
  conv_lhs => unfold runIter
  split <;> simp_all

theorem runIter_done (a : Archive) (la : Option Apath) :
    runIter a ⟨la, .done⟩ = [] :=
  runIter_stop a _ rfl

theorem runIter_inBand (a : Archive) (id : Nat) :
    ∀ (hs : List Hunk) (la : Option Apath),
      runIter a ⟨la, .inBand id hs⟩ = hs ++ runIter a ⟨updLast la hs, .afterBand id⟩ := by
  intro hs
  induction hs with
  | nil =>
    intro la
    rw [runIter_cont a ⟨la, .inBand id []⟩ ⟨la, .afterBand id⟩ rfl]
    simp [updLast]
  | cons h t ih =>
    intro la
    rw [runIter_yield a ⟨la, .inBand id (h :: t)⟩ h
      ⟨(match h.getLast? with | some e => some e.apath | none => la), .inBand id t⟩ rfl,
      ih]
    simp [updLast]

theorem runIter_beforeBand_ok (a : Archive) (id : Nat) (hunks0 : List Hunk)
    (la : Option Apath) (h : bandOpen a id = some hunks0) :
    runIter a ⟨la, .beforeBand id⟩ = runIter a ⟨la, .inBand id (advOpt la hunks0)⟩ := by
  apply runIter_cont
  simp [step, h]

theorem runIter_beforeBand_fail (a : Archive) (id : Nat) (la : Option Apath)
    (h : bandOpen a id = none) :
    runIter a ⟨la, .beforeBand id⟩ = runIter a ⟨la, .afterBand id⟩ := by
  apply runIter_cont
  simp [step, h]

theorem runIter_afterBand_closed (a : Archive) (id : Nat) (la : Option Apath)
    (h : bandIsClosed a id = true) :
    runIter a ⟨la, .afterBand id⟩ = [] := by
  rw [runIter_cont a _ ⟨la, .done⟩ (by simp [step, h])]
  exact runIter_done a la

theorem runIter_afterBand_prev (a : Archive) (id p : Nat) (la : Option Apath)
    (h : bandIsClosed a id = false) (hp : previousExistingBand a id = some p) :
    runIter a ⟨la, .afterBand id⟩ = runIter a ⟨la, .beforeBand p⟩ := by
  apply runIter_cont
  simp [step, h, hp]

theorem runIter_afterBand_none (a : Archive) (id : Nat) (la : Option Apath)
    (h : bandIsClosed a id = false) (hp : previousExistingBand a id = none) :
    runIter a ⟨la, .afterBand id⟩ = [] := by
  rw [runIter_cont a _ ⟨la, .done⟩ (by simp [step, h, hp])]
  exact runIter_done a la

/-! ### Order of entries -/

/-- Entry order: strictly increasing apaths. -/
def entLt (e f : IndexEntry) : Prop := e.apath < f.apath

instance : DecidableRel entLt := fun e f =>
  inferInstanceAs (Decidable (e.apath < f.apath))

/-- In a strictly increasing entry list, every entry is at most the last
one. -/
theorem pairwise_le_getLast :
    ∀ (l : List IndexEntry) (m : IndexEntry), List.Pairwise entLt l →
      l.getLast? = some m → ∀ e ∈ l, e.apath ≤ m.apath := by
  intro l
  induction l with
  | nil =>
    intro m _ hm
    simp at hm
  | cons x xs ih =>
    intro m hp hm e he
    cases xs with
    | nil =>
      simp at hm he
      subst hm
      subst he
      exact le_refl _
    | cons y ys =>
      rw [List.getLast?_cons_cons] at hm
      rcases List.mem_cons.mp he with rfl | hmem
      · exact le_of_lt ((List.pairwise_cons.mp hp).1 m (List.mem_of_mem_getLast? hm))
      · exact ih m (List.pairwise_cons.mp hp).2 hm e hmem

/-- `updLast` is determined by the last entry of the flattened hunks. -/
theorem updLast_eq (la : Option Apath) :
    ∀ (hs : List Hunk),
      updLast la hs =
        match hs.flatten.getLast? with
        | some e => some e.apath
        | none => la := by
  intro hs
  induction hs generalizing la with
  | nil => simp [updLast]
  | cons h t ih =>
    rw [updLast, ih]
    have hfl : (h :: t).flatten = h ++ t.flatten := rfl
    rw [hfl, List.getLast?_append]
    rcases ht : t.flatten.getLast? with _ | e
    · rcases hh : h.getLast? with _ | e2 <;> simp
    · simp

/-! ### `advance_to_after` lemmas -/

/-- The advanced stream's entries form a sublist of the original
entries. -/
theorem advance_flatten_sublist (last : Apath) :
    ∀ (hs : List Hunk),
      ((advanceToAfter last hs).flatten).Sublist hs.flatten := by
  intro hs
  induction hs with
  | nil => exact List.Sublist.refl _
  | cons h t ih =>
    rw [advanceToAfter]
    have hfl : (h :: t).flatten = h ++ t.flatten := rfl
    rw [hfl]
    split
    · exact ih.trans (List.sublist_append_right _ _)
    · split
      · exact ih.trans (List.sublist_append_right _ _)
      · exact List.Sublist.append (List.filter_sublist _) (List.Sublist.refl _)

/-- Every entry surviving `advance_to_after last` has apath `> last`
(for a band whose entries are strictly increasing). -/
theorem advance_flatten_gt (last : Apath) :
    ∀ (hs : List Hunk), List.Pairwise entLt hs.flatten →
      ∀ e ∈ (advanceToAfter last hs).flatten, last < e.apath := by
  intro hs
  induction hs with
  | nil =>
    intro _ e he
    simp [advanceToAfter] at he
  | cons h t ih =>
    intro hsort e he
    have hfl : (h :: t).flatten = h ++ t.flatten := rfl
    rw [hfl] at hsort
    obtain ⟨hh, ht, hcross⟩ := List.pairwise_append.mp hsort
    rw [advanceToAfter] at he
    split at he
    · exact ih ht e he
    · next m hgl =>
      split at he
      · exact ih ht e he
      · next hle =>
        have hfl2 :
            (h.filter (fun en => decide (last < en.apath)) :: t).flatten =
              h.filter (fun en => decide (last < en.apath)) ++ t.flatten := rfl
        rw [hfl2, List.mem_append] at he
        rcases he with hef | het
        · exact of_decide_eq_true (List.mem_filter.mp hef).2
        · have hmlt : last < m.apath := lt_of_not_le hle
          have hcr : entLt m e := hcross m (List.mem_of_mem_getLast? hgl) e het
          exact lt_trans hmlt hcr

/-- On a sorted band, `advance_to_after last` keeps exactly the entries
with apath `> last`. -/
theorem advance_flatten_eq_filter (last : Apath) :
    ∀ (hs : List Hunk), List.Pairwise entLt hs.flatten →
      (advanceToAfter last hs).flatten =
        hs.flatten.filter (fun en => decide (last < en.apath)) := by
  intro hs
  induction hs with
  | nil => simp [advanceToAfter]
  | cons h t ih =>
    intro hsort
    have hfl : (h :: t).flatten = h ++ t.flatten := rfl
    rw [hfl] at hsort ⊢
    obtain ⟨hh, ht, hcross⟩ := List.pairwise_append.mp hsort
    rw [advanceToAfter, List.filter_append]
    split
    · next hgl =>
      have h0 : h = [] := List.getLast?_eq_none_iff.mp hgl
      subst h0
      simpa using ih ht
    · next m hgl =>
      split
      · next hle =>
        have hnil : h.filter (fun en => decide (last < en.apath)) = [] := by
          rw [List.filter_eq_nil_iff]
          intro e hef
          simp only [decide_eq_true_eq]
          exact not_lt_of_le (le_trans (pairwise_le_getLast h m hh hgl e hef) hle)
        rw [hnil, List.nil_append]
        exact ih ht
      · next hle =>
        have hfl2 :
            (h.filter (fun en => decide (last < en.apath)) :: t).flatten =
              h.filter (fun en => decide (last < en.apath)) ++ t.flatten := rfl
        rw [hfl2]
        have htf : t.flatten.filter (fun en => decide (last < en.apath)) = t.flatten := by
          rw [List.filter_eq_self]
          intro e het
          have hmlt : last < m.apath := lt_of_not_le hle
          have hcr : entLt m e := hcross m (List.mem_of_mem_getLast? hgl) e het
          exact decide_eq_true (lt_trans hmlt hcr)
        rw [htf]

/-! ### The stitched stream is sorted -/

/-- `la` is a strict lower bound (when set) for every entry of `l`. -/
def lowerBound (la : Option Apath) (l : List IndexEntry) : Prop :=
  ∀ x, la = some x → ∀ e ∈ l, x < e.apath

/-- Invariant carried by the iterator: in `InBand`, the queued hunks are
strictly increasing and lie strictly above `last_apath`. -/
def stateOK (it : Iter) : Prop :=
  match it.state with
  | .inBand _ hs => List.Pairwise entLt hs.flatten ∧ lowerBound it.last_apath hs.flatten
  | _ => True

/-- The per-band index invariant, for every band of the archive: apaths
strictly increase across all of a band's hunks. -/
def archSorted (a : Archive) : Prop :=
  ∀ p ∈ a.bands, List.Pairwise entLt p.2.hunks.flatten

instance (a : Archive) : Decidable (archSorted a) := by
  unfold archSorted
  infer_instance

theorem lookup_mem :
    ∀ (l : List (Nat × Band)) (k : Nat) (b : Band),
      l.lookup k = some b → (k, b) ∈ l := by
  intro l
  induction l with
  | nil =>
    intro k b h
    simp [List.lookup] at h
  | cons p t ih =>
    rcases p with ⟨k2, v⟩
    intro k b h
    rw [List.lookup] at h
    cases hbe : (k == k2) with
    | true =>
      rw [hbe] at h
      simp at h
      have hkk : k = k2 := eq_of_beq hbe
      subst hkk
      subst h
      exact List.mem_cons_self _ _
    | false =>
      rw [hbe] at h
      simp at h
      exact List.mem_cons_of_mem _ (ih k b h)

/-- A band successfully opened in a sorted archive has sorted hunks. -/
theorem bandOpen_sorted (a : Archive) (hA : archSorted a) (id : Nat)
    (hunks0 : List Hunk) (ho : bandOpen a id = some hunks0) :
    List.Pairwise entLt hunks0.flatten := by
  unfold bandOpen at ho
  split at ho
  · next b hl =>
    split at ho
    · have hb : b.hunks = hunks0 := Option.some.inj ho
      exact hb ▸ hA (id, b) (lookup_mem a.bands id b hl)
    · exact Option.noConfusion ho
  · exact Option.noConfusion ho

/-- Main invariant lemma: from any state satisfying `stateOK`, the
remaining stitched stream is strictly increasing and lies strictly above
`last_apath`. -/
theorem runIter_sorted_aux (a : Archive) (hA : archSorted a) :
    ∀ (r : Nat) (it : Iter), rankNat it.state = r → stateOK it →
      List.Pairwise entLt (runIter a it).flatten ∧
      lowerBound it.last_apath (runIter a it).flatten := by
  intro r
  induction r using Nat.strong_induction_on with
  | _ r ih =>
    intro it hrank hok
    rcases it with ⟨la, st⟩
    cases st with
    | done =>
      rw [runIter_done]
      exact ⟨List.Pairwise.nil, fun x _ e he => absurd he (List.not_mem_nil e)⟩
    | afterBand id =>
      by_cases hcl : bandIsClosed a id = true
      · rw [runIter_afterBand_closed a id la hcl]
        exact ⟨List.Pairwise.nil, fun x _ e he => absurd he (List.not_mem_nil e)⟩
      · have hclf : bandIsClosed a id = false := by
          cases hbe : bandIsClosed a id
          · rfl
          · exact absurd hbe hcl
        rcases hp : previousExistingBand a id with _ | p
        · rw [runIter_afterBand_none a id la hclf hp]
          exact ⟨List.Pairwise.nil, fun x _ e he => absurd he (List.not_mem_nil e)⟩
        · rw [runIter_afterBand_prev a id p la hclf hp]
          have hlt := previousExistingBand_lt a id p hp
          exact ih (rankNat (.beforeBand p))
            (by rw [← hrank]; simp only [rankNat]; omega)
            ⟨la, .beforeBand p⟩ rfl trivial
    | beforeBand id =>
      rcases ho : bandOpen a id with _ | hunks0
      · rw [runIter_beforeBand_fail a id la ho]
        exact ih (rankNat (.afterBand id))
          (by rw [← hrank]; simp only [rankNat]; omega)
          ⟨la, .afterBand id⟩ rfl trivial
      · rw [runIter_beforeBand_ok a id hunks0 la ho]
        have hsort0 := bandOpen_sorted a hA id hunks0 ho
        apply ih (rankNat (.inBand id (advOpt la hunks0)))
          (by rw [← hrank]; simp only [rankNat]; omega)
          ⟨la, .inBand id (advOpt la hunks0)⟩ rfl
        refine ⟨?_, ?_⟩
        · rcases la with _ | x
          · exact hsort0
          · exact List.Pairwise.sublist (advance_flatten_sublist x hunks0) hsort0
        · intro x hx e he
          cases hx
          exact advance_flatten_gt x hunks0 hsort0 e he
    | inBand id hs =>
      rw [runIter_inBand a id hs la]
      have hok' : List.Pairwise entLt hs.flatten ∧ lowerBound la hs.flatten := hok
      obtain ⟨hson, hlb⟩ := hok'
      obtain ⟨htailS, htailLb⟩ :=
        ih (rankNat (.afterBand id)) (by rw [← hrank]; simp only [rankNat]; omega)
          ⟨updLast la hs, .afterBand id⟩ rfl trivial
      rw [List.flatten_append]
      constructor
      · rw [List.pairwise_append]
        refine ⟨hson, htailS, ?_⟩
        intro e hef f hft
        rcases hgl : hs.flatten.getLast? with _ | m
        · rw [List.getLast?_eq_none_iff.mp hgl] at hef
          exact absurd hef (List.not_mem_nil e)
        · have hla2 : updLast la hs = some m.apath := by
            rw [updLast_eq, hgl]
          have hmLe := pairwise_le_getLast hs.flatten m hson hgl e hef
          have hfGt : m.apath < f.apath := htailLb m.apath hla2 f hft
          exact lt_of_le_of_lt hmLe hfGt
      · intro x hx e he
        rw [List.mem_append] at he
        rcases he with hef | het
        · exact hlb x hx e hef
        · rcases hgl : hs.flatten.getLast? with _ | m
          · have hx2 : la = some x := hx
            have hla2 : updLast la hs = some x := by
              rw [updLast_eq, hgl, hx2]
            exact htailLb x hla2 e het
          · have hla2 : updLast la hs = some m.apath := by
              rw [updLast_eq, hgl]
            have h1 : x < m.apath := hlb x hx m (List.mem_of_mem_getLast? hgl)
            have h2 : m.apath < e.apath := htailLb m.apath hla2 e het
            exact lt_trans h1 h2

/-! ## Claim C2 -/

/-- **C2.** For every archive whose bands individually satisfy the
per-band index invariant (apaths strictly increasing across a band's
hunks), the stitched iterator started at any band id emits a stream of
hunks whose concatenated entry apaths are strictly increasing across the
whole stitched stream, including across the transition from one band to
an older band. -/
theorem claim_C2_stitched_stream_strictly_increasing :
    ∀ (a : Archive) (start : Nat),
      archSorted a →
      List.Pairwise (· < ·)
        (((runIter a ⟨none, .beforeBand start⟩).flatten).map IndexEntry.apath) := by
  intro a start hA
  rw [List.pairwise_map]
  exact (runIter_sorted_aux a hA (rankNat (.beforeBand start))
    ⟨none, .beforeBand start⟩ rfl trivial).1

/-! ### A concrete archive mirroring the source's own stitch test -/

/-- Apath `/0`. -/
def pa0 : Apath := [[48]]

/-- Apath `/00`. -/
def pa00 : Apath := [[48, 48]]

/-- Apath `/1`. -/
def pa1 : Apath := [[49]]

/-- Apath `/2`. -/
def pa2 : Apath := [[50]]

/-- Apath `/3`. -/
def pa3 : Apath := [[51]]

/-- Band `b0`: open, entries `/0 /1 | /2` (target label 0). -/
def bandW0 : Band := ⟨true, false, [[⟨pa0, 0⟩, ⟨pa1, 0⟩], [⟨pa2, 0⟩]]⟩

/-- Band `b1`: closed, entries `/0 /1 | /2 /3` (target label 1). -/
def bandW1 : Band := ⟨true, true, [[⟨pa0, 1⟩, ⟨pa1, 1⟩], [⟨pa2, 1⟩, ⟨pa3, 1⟩]]⟩

/-- Band `b2`: open, entries `/0 | /2` (target label 2). -/
def bandW2 : Band := ⟨true, false, [[⟨pa0, 2⟩], [⟨pa2, 2⟩]]⟩

/-- Band `b4`: open, no hunks. -/
def bandW4 : Band := ⟨true, false, []⟩

/-- Band `b5`: open, entries `/0 /00` (target label 5). -/
def bandW5 : Band := ⟨true, false, [[⟨pa0, 5⟩, ⟨pa00, 5⟩]]⟩

/-- The archive of the source's `stitch_index` test: bands 0, 1, 2, 4, 5
with band 3 deleted. -/
def aW : Archive := ⟨[(0, bandW0), (1, bandW1), (2, bandW2), (4, bandW4), (5, bandW5)]⟩

/-- Witness for C2: the test archive satisfies the per-band invariant and
the stitched stream from band 5 has strictly increasing apaths. -/
theorem claim_C2_witness :
    archSorted aW ∧
    List.Pairwise (· < ·)
      (((runIter aW ⟨none, .beforeBand 5⟩).flatten).map IndexEntry.apath) :=
  ⟨by decide, claim_C2_stitched_stream_strictly_increasing aW 5 (by decide)⟩

/-! ## Claim C3 -/

/-- **C3.** For every incomplete band `B` whose immediate predecessor
band `P` (the previous existing band) is closed and openable, the
stitched read starting at `B` yields exactly all entries of `B` followed
by the entries of `P` whose apath is strictly greater than the last apath
of `B`. -/
theorem claim_C3_stitch_incomplete_with_closed_predecessor :
    ∀ (a : Archive) (bId p : Nat) (B P : Band) (lastE : IndexEntry),
      a.find bId = some B → B.headOk = true → B.closed = false →
      previousExistingBand a bId = some p →
      a.find p = some P → P.headOk = true → P.closed = true →
      List.Pairwise entLt B.hunks.flatten →
      List.Pairwise entLt P.hunks.flatten →
      B.hunks.flatten.getLast? = some lastE →
      (runIter a ⟨none, .beforeBand bId⟩).flatten =
        B.hunks.flatten ++
          P.hunks.flatten.filter (fun e => decide (lastE.apath < e.apath)) := by
  intro a bId p B P lastE hB hBh hBc hprev hP hPh hPc hBs hPs hlast
  have hoB : bandOpen a bId = some B.hunks := by
    simp [bandOpen, hB, hBh]
  have hoP : bandOpen a p = some P.hunks := by
    simp [bandOpen, hP, hPh]
  have hclB : bandIsClosed a bId = false := by
    simp [bandIsClosed, hB, hBc]
  have hclP : bandIsClosed a p = true := by
    simp [bandIsClosed, hP, hPc]
  have hupd : updLast none B.hunks = some lastE.apath := by
    rw [updLast_eq, hlast]
  rw [runIter_beforeBand_ok a bId B.hunks none hoB,
    show advOpt none B.hunks = B.hunks from rfl,
    runIter_inBand a bId B.hunks none, hupd,
    runIter_afterBand_prev a bId p (some lastE.apath) hclB hprev,
    runIter_beforeBand_ok a p P.hunks (some lastE.apath) hoP,
    show advOpt (some lastE.apath) P.hunks = advanceToAfter lastE.apath P.hunks from rfl,
    runIter_inBand a p (advanceToAfter lastE.apath P.hunks) (some lastE.apath),
    runIter_afterBand_closed a p _ hclP,
    List.append_nil, List.flatten_append,
    advance_flatten_eq_filter lastE.apath P.hunks hPs]

/-- Witness for C3 on the test archive: stitching from the incomplete
band `b2` (predecessor `b1` closed) yields `/0:b2 /2:b2 /3:b1`, as in the
source's own test expectation. -/
theorem claim_C3_witness :
    (runIter aW ⟨none, .beforeBand 2⟩).flatten =
      bandW2.hunks.flatten ++
        bandW1.hunks.flatten.filter
          (fun e => decide ((⟨pa2, 2⟩ : IndexEntry).apath < e.apath)) ∧
    bandW2.hunks.flatten ++
        bandW1.hunks.flatten.filter
          (fun e => decide ((⟨pa2, 2⟩ : IndexEntry).apath < e.apath)) =
      [⟨pa0, 2⟩, ⟨pa2, 2⟩, ⟨pa3, 1⟩] :=
  ⟨claim_C3_stitch_incomplete_with_closed_predecessor aW 2 1 bandW2 bandW1 ⟨pa2, 2⟩
      (by decide) (by decide) (by decide) (by decide) (by decide) (by decide)
      (by decide) (by decide) (by decide) (by decide),
    by decide⟩

/-! ## Claim C7 -/

/-- `previous_existing_band` returns the greatest existing band id below
the given one. -/
theorem previousExistingBand_some_spec (a : Archive) :
    ∀ (id p : Nat), previousExistingBand a id = some p →
      p < id ∧ bandExists a p = true ∧
        ∀ q, p < q → q < id → bandExists a q = false := by
  intro id
  induction id with
  | zero =>
    intro p h
    simp [previousExistingBand] at h
  | succ n ih =>
    intro p h
    rw [previousExistingBand] at h
    by_cases he : bandExists a n = true
    · rw [if_pos he] at h
      injection h with h
      subst h
      exact ⟨Nat.lt_succ_self _, he, fun q hq1 hq2 => (by omega : False).elim⟩
    · have hef : bandExists a n = false := by
        cases hbe : bandExists a n
        · rfl
        · exact absurd hbe he
      rw [if_neg he] at h
      obtain ⟨h1, h2, h3⟩ := ih p h
      refine ⟨by omega, h2, ?_⟩
      intro q hq1 hq2
      rcases Nat.lt_succ_iff_lt_or_eq.mp hq2 with hlt | heq
      · exact h3 q hq1 hlt
      · subst heq
        exact hef

/-- When `previous_existing_band` finds nothing, no band below exists. -/
theorem previousExistingBand_none_spec (a : Archive) :
    ∀ (id : Nat), previousExistingBand a id = none →
      ∀ q, q < id → bandExists a q = false := by
  intro id
  induction id with
  | zero =>
    intro _ q hq
    exact (by omega : False).elim
  | succ n ih =>
    intro h q hq
    rw [previousExistingBand] at h
    by_cases he : bandExists a n = true
    · rw [if_pos he] at h
      exact Option.noConfusion h
    · have hef : bandExists a n = false := by
        cases hbe : bandExists a n
        · rfl
        · exact absurd hbe he
      rw [if_neg he] at h
      rcases Nat.lt_succ_iff_lt_or_eq.mp hq with hlt | heq
      · exact ih h q hlt
      · subst heq
        exact hef

/-- **C7.** In state `AfterBand(id)`: if band `id` is closed the iterator
transitions to `Done`; otherwise it transitions to `BeforeBand(p)` where
`p` is the greatest band id less than `id` that exists in the archive, or
to `Done` when no band below exists.  In state `BeforeBand(id)`, an open
failure (missing head, deleted band) transitions to `AfterBand(id)`
rather than erroring. -/
theorem claim_C7_state_machine_transitions :
    (∀ (a : Archive) (la : Option Apath) (id : Nat),
      bandIsClosed a id = true →
      step a ⟨la, .afterBand id⟩ = .cont ⟨la, .done⟩) ∧
    (∀ (a : Archive) (la : Option Apath) (id p : Nat),
      bandIsClosed a id = false →
      previousExistingBand a id = some p →
      step a ⟨la, .afterBand id⟩ = .cont ⟨la, .beforeBand p⟩ ∧
        p < id ∧ bandExists a p = true ∧
        ∀ q, p < q → q < id → bandExists a q = false) ∧
    (∀ (a : Archive) (la : Option Apath) (id : Nat),
      bandIsClosed a id = false →
      previousExistingBand a id = none →
      step a ⟨la, .afterBand id⟩ = .cont ⟨la, .done⟩ ∧
        ∀ q, q < id → bandExists a q = false) ∧
    (∀ (a : Archive) (la : Option Apath) (id : Nat),
      bandOpen a id = none →
      step a ⟨la, .beforeBand id⟩ = .cont ⟨la, .afterBand id⟩) := by
  refine ⟨?_, ?_, ?_, ?_⟩
  · intro a la id h
    simp [step, h]
  · intro a la id p h hp
    have hspec := previousExistingBand_some_spec a id p hp
    exact ⟨by simp [step, h, hp], hspec.1, hspec.2.1, hspec.2.2⟩
  · intro a la id h hp
    exact ⟨by simp [step, h, hp], previousExistingBand_none_spec a id hp⟩
  · intro a la id h
    simp [step, h]

/-- Witness for C7 on the test archive: the closed band `b1` terminates
the walk; from the open band `b5` the iterator moves back to `b4`
(the greatest existing lower id); from band 0 with nothing below it goes
to `Done`; opening the deleted band `b3` fails into `AfterBand(3)`. -/
theorem claim_C7_witness :
    step aW ⟨none, .afterBand 1⟩ = .cont ⟨none, .done⟩ ∧
    (step aW ⟨none, .afterBand 5⟩ = .cont ⟨none, .beforeBand 4⟩ ∧
      4 < 5 ∧ bandExists aW 4 = true ∧
      ∀ q, 4 < q → q < 5 → bandExists aW q = false) ∧
    (step aW ⟨none, .afterBand 0⟩ = .cont ⟨none, .done⟩ ∧
      ∀ q, q < 0 → bandExists aW q = false) ∧
    step aW ⟨none, .beforeBand 3⟩ = .cont ⟨none, .afterBand 3⟩ :=
  ⟨claim_C7_state_machine_transitions.1 aW none 1 (by decide),
    claim_C7_state_machine_transitions.2.1 aW none 5 4 (by decide) (by decide),
    claim_C7_state_machine_transitions.2.2.1 aW none 0 (by decide) (by decide),
    claim_C7_state_machine_transitions.2.2.2 aW none 3 (by decide)⟩

/-! ## Claim C10 -/

/-- **C10.** The stitched iterator terminates: every internal (`cont`)
transition of the loop strictly decreases the state rank, every yield
keeps the rank and strictly shortens the queued hunks, and
`previous_existing_band` always moves to a strictly smaller band id — so
each call to `next()` performs finitely many internal transitions and the
overall stream (`runIter`, a list) is finite. -/
theorem claim_C10_stitch_iteration_terminates :
    (∀ (a : Archive) (it it' : Iter), step a it = .cont it' →
      rankNat it'.state < rankNat it.state) ∧
    (∀ (a : Archive) (it : Iter) (hunk : Hunk) (it' : Iter),
      step a it = .yield hunk it' →
      rankNat it'.state = rankNat it.state ∧
        hunksLen it'.state < hunksLen it.state) ∧
    (∀ (a : Archive) (id p : Nat),
      previousExistingBand a id = some p → p < id) :=
  ⟨step_cont_rank, step_yield_rank, previousExistingBand_lt⟩

/-- Witness for C10 at concrete transitions of the test archive: an
exhausted `InBand` continues with smaller rank; a yield keeps the rank
and shortens the queue; the previous existing band below 5 is 4 < 5. -/
theorem claim_C10_witness :
    rankNat (Iter.mk none (.afterBand 0)).state <
      rankNat (Iter.mk none (.inBand 0 [])).state ∧
    (rankNat (Iter.mk (some pa0) (.inBand 0 [])).state =
        rankNat (Iter.mk none (.inBand 0 [[⟨pa0, 0⟩]])).state ∧
      hunksLen (Iter.mk (some pa0) (.inBand 0 [])).state <
        hunksLen (Iter.mk none (.inBand 0 [[⟨pa0, 0⟩]])).state) ∧
    4 < 5 :=
  ⟨claim_C10_stitch_iteration_terminates.1 aW ⟨none, .inBand 0 []⟩
      ⟨none, .afterBand 0⟩ (by decide),
    claim_C10_stitch_iteration_terminates.2.1 aW ⟨none, .inBand 0 [[⟨pa0, 0⟩]]⟩
      [⟨pa0, 0⟩] ⟨some pa0, .inBand 0 []⟩ (by decide),
    claim_C10_stitch_iteration_terminates.2.2 aW 5 4 (by decide)⟩

/-! ## Garbage collection (`Archive::delete_bands`)

The implementation of `delete_bands` is not among the provided sources
(only its API test `tests/api/gc.rs` is), so the operation is modelled
from the specification, section 4.10. -/

/-- Modelled from the spec: a band as seen by GC — whether it is closed
and the union of block hashes referenced by its hunks' addresses. -/
structure GcBand where
  closed : Bool
  referenced : List BlockHash
deriving DecidableEq, Repr

/-- Modelled from the spec: the archive state GC operates on — bands,
present blocks with their on-disk byte sizes, and the `GC_LOCK` file. -/
structure GcArchive where
  bands : List (Nat × GcBand)
  blocks : List (BlockHash × Nat)
  gcLock : Bool
deriving DecidableEq, Repr

/-- `DeleteOptions` from the source's API. -/
structure DeleteOptions where
  dry_run : Bool
  break_lock : Bool
deriving DecidableEq, Repr

/-- `DeleteStats` as asserted by `tests/api/gc.rs` (the wall-clock
`elapsed` field is not modelled). -/
structure DeleteStats where
  unreferenced_block_count : Nat
  unreferenced_block_bytes : Nat
  deletion_errors : Nat
  deleted_block_count : Nat
  deleted_band_count : Nat
deriving DecidableEq, Repr

/-- Union of the referenced blocks of a collection of bands. -/
def referencedBlocks (bands : List (Nat × GcBand)) : List BlockHash :=
  (bands.map (fun p => p.2.referenced)).flatten

/-- Modelled from the spec (4.10 step 5): present blocks not referenced
by any band outside `targets`, with their byte sizes. -/
def unreferencedBlocks (a : GcArchive) (targets : List Nat) :
    List (BlockHash × Nat) :=
  a.blocks.filter
    (fun b =>
      !((referencedBlocks (a.bands.filter (fun p => !(targets.contains p.1)))).contains b.1))

/-- Greatest band id present in the archive. -/
def lastBandId (a : GcArchive) : Option Nat :=
  match a.bands.map Prod.fst with
  | [] => none
  | x :: xs => some (xs.foldl max x)

/-- Modelled from the spec (4.10 step 2): the id of the last band when it
is incomplete and not itself targeted, which makes deletion unsafe. -/
def gcLastIncomplete (a : GcArchive) (targets : List Nat) : Option Nat :=
  match lastBandId a with
  | none => none
  | some lastId =>
    match a.bands.lookup lastId with
    | some b => if !b.closed && !(targets.contains lastId) then some lastId else none
    | none => none

/-- Modelled from the spec: `Archive::delete_bands(targets, options)`
(section 4.10).  Acquire `GC_LOCK` (failing with the lock-held error
unless `break_lock`); refuse when the last band is incomplete and not
targeted; compute the unreferenced blocks against the surviving bands; on
`dry_run` report their count and byte total and delete nothing; otherwise
delete the target band directories and the unreferenced block files;
finally release the lock. -/
def delete_bands (a : GcArchive) (targets : List Nat) (options : DeleteOptions) :
    Except ConsError (DeleteStats × GcArchive) :=
  if a.gcLock && !options.break_lock then .error .gcLockHeld
  else
    match gcLastIncomplete a targets with
    | some lastId => .error (.deleteWithIncompleteBackup lastId)
    | none =>
      let unref := unreferencedBlocks a targets
      let stats0 : DeleteStats :=
        { unreferenced_block_count := unref.length
          unreferenced_block_bytes := (unref.map Prod.snd).sum
          deletion_errors := 0
          deleted_block_count := 0
          deleted_band_count := 0 }
      if options.dry_run then
        .ok (stats0, { a with gcLock := false })
      else
        let survivors := a.bands.filter (fun p => !(targets.contains p.1))
        let remaining :=
          a.blocks.filter (fun b => !((unref.map Prod.fst).contains b.1))
        .ok
          ({ stats0 with
              deleted_block_count := unref.length
              deleted_band_count := a.bands.length - survivors.length },
            { bands := survivors, blocks := remaining, gcLock := false })

/-! ## Claim C8 -/

/-- **C8.** For every archive and target set, `delete_bands` with
`dry_run = true` (when the lock can be acquired and the last band is not
an untargeted incomplete one) returns stats containing the unreferenced
block count and byte total but deletes nothing: the returned archive has
the same bands and blocks, and the returned `deleted_block_count` and
`deleted_band_count` are zero. -/
theorem claim_C8_delete_bands_dry_run :
    ∀ (a : GcArchive) (targets : List Nat) (options : DeleteOptions),
      options.dry_run = true →
      (a.gcLock = false ∨ options.break_lock = true) →
      gcLastIncomplete a targets = none →
      delete_bands a targets options =
        .ok
          ({ unreferenced_block_count := (unreferencedBlocks a targets).length
             unreferenced_block_bytes := ((unreferencedBlocks a targets).map Prod.snd).sum
             deletion_errors := 0
             deleted_block_count := 0
             deleted_band_count := 0 },
            { a with gcLock := false }) ∧
      ({ a with gcLock := false } : GcArchive).bands = a.bands ∧
      ({ a with gcLock := false } : GcArchive).blocks = a.blocks := by
  intro a targets options hdr hlock hlast
  have hcond : (a.gcLock && !options.break_lock) = false := by
    rcases hlock with h1 | h2
    · rw [h1]
      rfl
    · rw [h2]
      simp
  refine ⟨?_, rfl, rfl⟩
  simp only [delete_bands, hcond, hlast, hdr]
  simp

/-- The archive of the `unreferenced_blocks` API test after the band
directory is removed externally: no bands, one 10-byte block, no lock. -/
def aG : GcArchive := ⟨[], [(1, 10)], false⟩

/-- Witness for C8, mirroring the test's dry-run assertion: count 1,
bytes 10, nothing deleted. -/
theorem claim_C8_witness :
    delete_bands aG [] ⟨true, false⟩ =
      .ok
        ({ unreferenced_block_count := (unreferencedBlocks aG []).length
           unreferenced_block_bytes := ((unreferencedBlocks aG []).map Prod.snd).sum
           deletion_errors := 0
           deleted_block_count := 0
           deleted_band_count := 0 },
          { aG with gcLock := false }) ∧
    (unreferencedBlocks aG []).length = 1 ∧
    ((unreferencedBlocks aG []).map Prod.snd).sum = 10 :=
  ⟨(claim_C8_delete_bands_dry_run aG [] ⟨true, false⟩ (by decide) (Or.inl (by decide))
      (by decide)).1,
    by decide, by decide⟩

end Conserve
